import Mathlib

/-
  Verification of the portfolio tracker core (portfolio_tracker.py).

  The embedding works over `List Char` as the model of Python strings and
  over exact rationals as the model of the finite Python floats the program
  computes with; the special float values produced by `float("nan")` and
  `float("inf")` are modelled by dedicated constructors of `PyFloat`.
  Division of a nonzero float by zero yields a non-finite float in Python;
  the allocation model records such a percentage as `none`.
-/

namespace Portfolio

/-- Model of a Python string: a list of characters. -/
abbrev Str := List Char

/-- Characters stripped by Python `str.strip()` (ASCII whitespace subset;
the inputs of interest contain only ASCII). -/
def isPySpace (c : Char) : Bool :=
  c == ' ' || c == '\t' || c == '\n' || c == '\r' || c == '\x0b' || c == '\x0c'

/-- Drop leading whitespace, as the left half of Python `str.strip()`. -/
def stripLeft (l : Str) : Str := l.dropWhile isPySpace

/-- Model of Python `str.strip()`: drop leading and trailing whitespace. -/
def pyStrip (l : Str) : Str := ((stripLeft l).reverse.dropWhile isPySpace).reverse

/-- Model of Python `str.split(sep)` for a one-character separator:
splitting the empty string yields one empty field. -/
def splitOnChar (sep : Char) : Str → List Str
  | [] => [[]]
  | c :: cs =>
    let r := splitOnChar sep cs
    if c = sep then [] :: r
    else
      match r with
      | [] => [[c]]
      | h :: t => (c :: h) :: t

/-- Model of a Python float value: a finite value (exact rational),
not-a-number, or a signed infinity. -/
inductive PyFloat where
  | fin (q : ℚ)
  | nan
  | inf
  | ninf
deriving DecidableEq

/-- Negation of a Python float (used for a leading minus sign). -/
def PyFloat.neg : PyFloat → PyFloat
  | .fin q => .fin (-q)
  | .nan => .nan
  | .inf => .ninf
  | .ninf => .inf

/-- Numeric value of a (possibly empty) sequence of ASCII digit characters,
read most-significant first. -/
def digitsVal (l : Str) : ℕ :=
  l.foldl (fun a c => a * 10 + (c.toNat - 48)) 0

/-- Parse an unsigned decimal literal (`"5"`, `"5."`, `".5"`, `"5.25"`)
into an exact rational; `none` when the text is not such a literal. -/
def parseUnsignedRat (l : Str) : Option ℚ :=
  match splitOnChar '.' l with
  | [a] =>
    if !a.isEmpty && a.all Char.isDigit then some (digitsVal a) else none
  | [a, b] =>
    if !(a ++ b).isEmpty && a.all Char.isDigit && b.all Char.isDigit then
      some ((digitsVal a : ℚ) + (digitsVal b : ℚ) / 10 ^ b.length)
    else none
  | _ => none

/-- Model of CPython `float(s)` on a string without a sign: the special
names and decimal literals (restricted to the lowercase special names and
to literals without exponent part or underscores, which is the fragment
the tracker's inputs and outputs use). -/
def tryFloatUnsigned (l : Str) : Option PyFloat :=
  if l = "nan".toList then some .nan
  else if l = "inf".toList ∨ l = "infinity".toList then some .inf
  else (parseUnsignedRat l).map .fin

/-- Model of CPython `float(s)` on an already-stripped string: an optional
leading sign followed by an unsigned literal; `none` models the
`ValueError` that `float` raises on anything else. -/
def tryFloat (l : Str) : Option PyFloat :=
  if l.head? = some '+' then tryFloatUnsigned l.tail
  else if l.head? = some '-' then (tryFloatUnsigned l.tail).map PyFloat.neg
  else tryFloatUnsigned l

/-- Association list keyed by strings: the model of a Python dict
(insertion-ordered, as Python dicts are). -/
abbrev AList (V : Type) := List (Str × V)

/-- The keys of a mapping, in insertion order. -/
def keysA {V : Type} (m : AList V) : List Str := m.map Prod.fst

/-- Model of Python `d[k] = v`: update the value in place when the key is
present (Python dicts keep the original position), append otherwise. -/
def insertA {V : Type} (m : AList V) (k : Str) (v : V) : AList V :=
  if k ∈ keysA m then m.map (fun e => if e.1 = k then (k, v) else e)
  else m ++ [(k, v)]

/-- Model of Python `d.get`-style lookup: the value bound to `k`. -/
def lookupA {V : Type} : AList V → Str → Option V
  | [], _ => none
  | e :: rest, k => if e.1 = k then some e.2 else lookupA rest k

/-- One iteration of the loop body of `parse_input` (lines 115-124): strip
the line, require it nonempty and containing a comma, split on commas,
require exactly two fields, and convert the stripped amount with `float`,
skipping the line when the conversion raises `ValueError`. -/
def lineEntry (line0 : Str) : Option (Str × PyFloat) :=
  let line := pyStrip line0
  if line ≠ [] ∧ ',' ∈ line then
    match splitOnChar ',' line with
    | [name, amount] =>
      match tryFloat (pyStrip amount) with
      | some v => some (pyStrip name, v)
      | none => none
    | _ => none
  else none

/-- One step of the `parse_input` fold: apply the line step to the dict
accumulated so far. -/
def parseStep (d : AList PyFloat) (line : Str) : AList PyFloat :=
  match lineEntry line with
  | some (n, v) => insertA d n v
  | none => d

/-- Insertion of one (key, value) pair, as a fold step. -/
def insertStep {V : Type} (d : AList V) (e : Str × V) : AList V :=
  insertA d e.1 e.2

/-- Model of `parse_input` (lines 113-125): strip the whole text, split it
on newlines, and fold the per-line step over an initially empty dict. -/
def parseInput (text : Str) : AList PyFloat :=
  (splitOnChar '\n' (pyStrip text)).foldl parseStep []

/-- The combined asset dict of the allocation block (lines 254-258): ETF
entries under the key prefix `"ETF: "`, then SCPI entries under
`"SCPI: "`, inserted into one dict. -/
def allAssets (etf scpi : AList ℚ) : AList ℚ :=
  ((etf.map (fun e => ("ETF: ".toList ++ e.1, e.2))) ++
   (scpi.map (fun e => ("SCPI: ".toList ++ e.1, e.2)))).foldl insertStep []

/-- The grand total of the allocation table (line 266): the sum of the
amounts of the combined asset dict. -/
def grandTotal (assets : AList ℚ) : ℚ := (assets.map Prod.snd).sum

/-- Round to the nearest integer, ties to even: the rounding used by
pandas `Series.round` (numpy half-to-even). -/
def roundHE (x : ℚ) : ℤ :=
  let f := ⌊x⌋
  let r := x - f
  if r < 1 / 2 then f
  else if 1 / 2 < r then f + 1
  else if Even f then f else f + 1

/-- Round to 2 decimal places, as `.round(2)` on line 267. -/
def round2 (x : ℚ) : ℚ := (roundHE (x * 100) : ℚ) / 100

/-- The allocation table of lines 260-295: rows are built only when the
combined asset dict is non-empty; the percentage column is
`amount / total * 100` rounded to 2 decimals, and is `none` when the float
division by a zero total produces a non-finite value. -/
def allocationRows (etf scpi : AList ℚ) : List (Str × ℚ × Option ℚ) :=
  let assets := allAssets etf scpi
  if assets = [] then []
  else
    let total := grandTotal assets
    assets.map (fun e =>
      (e.1, e.2, if total = 0 then none else some (round2 (e.2 / total * 100))))

/-- The four diversification labels of lines 461-468. -/
inductive DivLabel where
  | heavyMarket
  | heavyRealEstate
  | balanced
  | mixed
deriving DecidableEq

/-- The diversification classifier (lines 461-468), an if/elif chain on
the two category percentages. -/
def classify (pctEtf pctScpi : ℚ) : DivLabel :=
  if pctEtf > 80 then .heavyMarket
  else if pctScpi > 80 then .heavyRealEstate
  else if 40 ≤ pctEtf ∧ pctEtf ≤ 60 then .balanced
  else .mixed

/-- Base-100 normalization of a close-price series (line 319):
`close_prices / close_prices.iloc[0] * 100`. The code only evaluates it on
a non-empty series; the empty case is mapped to the empty series. -/
def normalizeSeries : List ℚ → List ℚ
  | [] => []
  | c0 :: rest => (c0 :: rest).map (fun c => c / c0 * 100)

/-- The total-return statistic (line 364):
`((close_prices.iloc[-1] / close_prices.iloc[0]) - 1) * 100`. The code
only evaluates it on a non-empty series; the empty case is mapped to 0. -/
def totalReturnPct : List ℚ → ℚ
  | [] => 0
  | c0 :: rest =>
    ((c0 :: rest).getLast (List.cons_ne_nil c0 rest) / c0 - 1) * 100

/-- Outcome of one `yf.download` call for one ticker: a close-price
series (possibly empty), or a raised exception with a message. -/
inductive FetchResult where
  | ok (closes : List ℚ)
  | raised (msg : Str)
deriving DecidableEq

/-- The chart loop (lines 305-329): per ticker, download inside a `try`;
a non-empty series adds a normalized trace, an empty series adds nothing,
and a raised exception adds a per-ticker warning; the loop then continues
with the remaining tickers. Returns (traces, warnings) in loop order. -/
def chartLoop (fetch : Str → FetchResult) : List Str → List (Str × List ℚ) × List Str
  | [] => ([], [])
  | t :: ts =>
    let rest := chartLoop fetch ts
    match fetch t with
    | .ok closes =>
      if closes = [] then rest
      else ((t, normalizeSeries closes) :: rest.1, rest.2)
    | .raised _ => (rest.1, t :: rest.2)

/-- The statistics loop (lines 349-371): per ticker, download inside a
`try` whose handler is `pass`; a non-empty series adds a row with the
total-return percentage and the latest close, anything else adds
nothing. -/
def statsLoop (fetch : Str → FetchResult) : List Str → List (Str × ℚ × ℚ)
  | [] => []
  | t :: ts =>
    let rest := statsLoop fetch ts
    match fetch t with
    | .ok [] => rest
    | .ok (c0 :: cs) =>
      (t, totalReturnPct (c0 :: cs),
        (c0 :: cs).getLast (List.cons_ne_nil c0 cs)) :: rest
    | .raised _ => rest

/-- The performance column (lines 298-377): run the chart loop, and run
the statistics loop only when at least one trace was produced
(`if fig_line.data:`). The two loops download independently, so each gets
its own fetch oracle. -/
def performanceView (fetch1 fetch2 : Str → FetchResult) (tickers : List Str) :
    List (Str × List ℚ) × List Str × List (Str × ℚ × ℚ) :=
  let c := chartLoop fetch1 tickers
  (c.1, c.2, if c.1 = [] then [] else statsLoop fetch2 tickers)

/-- The insert loop of `save_user_etfs` / `save_user_scpis` (lines 83-88
and 101-106): rows are inserted one by one into the already-emptied table;
when insert number `k` raises (`failAt = some k`), the `except` handler
returns `False` with the rows inserted so far left committed. -/
def insertRows : AList ℚ → AList ℚ → Option ℕ → ℕ → AList ℚ × Bool
  | table, [], _, _ => (table, true)
  | table, r :: rs, failAt, k =>
    if failAt = some k then (table, false)
    else insertRows (table ++ [r]) rs failAt (k + 1)

/-- Model of `save_user_etfs` / `save_user_scpis` (lines 76-110): first
delete every stored row of the user, then insert the new rows one by one;
`failAt` says which insert (if any) raises. Returns the table state for
this user after the call together with the returned success flag. -/
def saveUserHoldings (stored newData : AList ℚ) (failAt : Option ℕ) :
    AList ℚ × Bool :=
  insertRows (stored.filter (fun _ => false)) newData failAt 0

/-- The character for digit `d`. -/
def digitToChar (d : ℕ) : Char := Char.ofNat (48 + d)

/-- Decimal digit characters, most-significant first, by repeated
division; the first argument is recursion fuel. -/
def natDigitsAux : ℕ → ℕ → Str
  | 0, _ => []
  | _ + 1, 0 => []
  | fuel + 1, n + 1 =>
    natDigitsAux fuel ((n + 1) / 10) ++ [digitToChar ((n + 1) % 10)]

/-- Decimal digit characters of `n`, most-significant first (empty for
`n = 0`). -/
def natDigits (n : ℕ) : Str := natDigitsAux n n

/-- Left-pad a digit string with zeros to length `k`. -/
def padZeros (k : ℕ) (l : Str) : Str := List.replicate (k - l.length) '0' ++ l

/-- The `intpart.fracpart` digit string with integer part `ip`, fraction
numerator `fr` and fraction width `k`. -/
def renderParts (ip fr k : ℕ) : Str :=
  (if ip = 0 then ['0'] else natDigits ip) ++ '.' :: padZeros k (natDigits fr)

/-- Decimal rendering of a nonnegative rational whose denominator divides
a power of ten, in the `intpart.fracpart` shape that Python float
formatting produces (the model pads with zeros instead of choosing the
shortest form; the reparsed value is the same). -/
def renderNonneg (q : ℚ) : Str :=
  renderParts ((q * 10 ^ max 1 q.den).num.toNat / 10 ^ max 1 q.den)
    ((q * 10 ^ max 1 q.den).num.toNat % 10 ^ max 1 q.den) (max 1 q.den)

/-- Model of Python float formatting as used by `f"{ticker},{amount}"` on
lines 194-195: `nan`, `inf` and `-inf` print as such, finite values as
(sign and) a decimal literal. -/
def renderAmount : PyFloat → Str
  | .nan => "nan".toList
  | .inf => "inf".toList
  | .ninf => "-inf".toList
  | .fin q => if q < 0 then '-' :: renderNonneg (-q) else renderNonneg q

/-- A float value whose finite part has a finite decimal expansion, which
is the case for every Python float (their denominators are powers of
two). -/
def Renderable : PyFloat → Prop
  | .fin q => q.den ∣ 10 ^ max 1 q.den
  | _ => True

/-- The text line for one entry: `name,amount` (lines 194-195). -/
def lineOf (e : Str × PyFloat) : Str := e.1 ++ ',' :: renderAmount e.2

/-- Model of Python `"\n".join(lines)`. -/
def joinLines : List Str → Str
  | [] => []
  | [l] => l
  | l :: l' :: rest => l ++ '\n' :: joinLines (l' :: rest)

/-- Lines 194-195: each entry printed as `name,amount`, joined with
newlines. -/
def renderMapping (m : AList PyFloat) : Str :=
  joinLines (m.map lineOf)

/-- A key that round-trips through the text format: it contains no comma
and no newline and has no leading or trailing whitespace. -/
def GoodKey (k : Str) : Prop :=
  ',' ∉ k ∧ '\n' ∉ k ∧ k.dropWhile isPySpace = k ∧
  k.reverse.dropWhile isPySpace = k.reverse

instance (v : PyFloat) : Decidable (Renderable v) :=
  match v with
  | .fin q => inferInstanceAs (Decidable (q.den ∣ 10 ^ max 1 q.den))
  | .nan => inferInstanceAs (Decidable True)
  | .inf => inferInstanceAs (Decidable True)
  | .ninf => inferInstanceAs (Decidable True)

instance (k : Str) : Decidable (GoodKey k) :=
  inferInstanceAs (Decidable ((',' ∉ k) ∧ ('\n' ∉ k) ∧
    (k.dropWhile isPySpace = k) ∧ (k.reverse.dropWhile isPySpace = k.reverse)))

/-- The claim's description of a line `parse_input` must skip: blank after
trimming, or without a comma, or splitting into a field count other than
2, or with an amount that `float` rejects. -/
def malformedLine (line : Str) : Bool :=
  let l := pyStrip line
  decide (l = []) || decide (',' ∉ l) || decide ((splitOnChar ',' l).length ≠ 2) ||
    (match splitOnChar ',' l with
     | [_, amount] => (tryFloat (pyStrip amount)).isNone
     | _ => false)

/-- The amounts of the valid lines of `text` whose parsed name is `name`,
in line order. -/
def validEntriesFor (text name : Str) : List PyFloat :=
  (splitOnChar '\n' (pyStrip text)).filterMap
    (fun line =>
      match lineEntry line with
      | some (n, v) => if n = name then some v else none
      | none => none)

/-- What the chart loop keeps for one ticker: the normalized trace when
the fetch succeeds with a non-empty series, nothing otherwise. -/
def traceOf (fetch : Str → FetchResult) (t : Str) : Option (Str × List ℚ) :=
  match fetch t with
  | .ok closes => if closes = [] then none else some (t, normalizeSeries closes)
  | .raised _ => none

/-- What the chart loop warns about for one ticker: the ticker itself,
exactly when the fetch raised. -/
def warnOf (fetch : Str → FetchResult) (t : Str) : Option Str :=
  match fetch t with
  | .ok _ => none
  | .raised _ => some t

/-- What the statistics loop keeps for one ticker: the total-return row
when the fetch succeeds with a non-empty series, nothing otherwise. -/
def statOf (fetch : Str → FetchResult) (t : Str) : Option (Str × ℚ × ℚ) :=
  match fetch t with
  | .ok [] => none
  | .ok (c0 :: cs) =>
    some (t, totalReturnPct (c0 :: cs), (c0 :: cs).getLast (List.cons_ne_nil c0 cs))
  | .raised _ => none

/-- A concrete fetch oracle: ticker `AAA` raises, every other ticker
returns the two-point series [2, 3]. -/
def fetchEx (t : Str) : FetchResult :=
  if t = "AAA".toList then .raised "boom".toList else .ok [2, 3]

/-- C3: the diversification classifier is the decision table evaluated in
order with first match winning: pctA > 80 gives the market-weighted
label; otherwise pctB > 80 the real-estate-weighted label; otherwise
40 ≤ pctA ≤ 60 balanced; otherwise mixed. At the boundaries,
classify 80.0 20.0 is mixed, classify 80.01 19.99 is market-weighted and
classify 50 50 is balanced. -/
theorem classify_decision_table :
    (∀ a b : ℚ, 80 < a → classify a b = .heavyMarket) ∧
    (∀ a b : ℚ, ¬ 80 < a → 80 < b → classify a b = .heavyRealEstate) ∧
    (∀ a b : ℚ, ¬ 80 < a → ¬ 80 < b → 40 ≤ a → a ≤ 60 →
      classify a b = .balanced) ∧
    (∀ a b : ℚ, ¬ 80 < a → ¬ 80 < b → ¬ (40 ≤ a ∧ a ≤ 60) →
      classify a b = .mixed) ∧
    classify 80 20 = .mixed ∧
    classify 80.01 19.99 = .heavyMarket ∧
    classify 50 50 = .balanced := by
  refine ⟨?_, ?_, ?_, ?_, ?_, ?_, ?_⟩
  · intro a b h; simp [classify, h]
  · intro a b h1 h2; simp [classify, h1, h2]
  · intro a b h1 h2 h3 h4; simp [classify, h1, h2, h3, h4]
  · intro a b h1 h2 h3; simp [classify, h1, h2, h3]
  · norm_num [classify]
  · norm_num [classify]
  · norm_num [classify]

/-- Witness for C3: a concrete application of the first decision row. -/
theorem classify_decision_table_witness :
    (80 : ℚ) < 85 ∧ classify 85 10 = .heavyMarket :=
  ⟨by norm_num, classify_decision_table.1 85 10 (by norm_num)⟩

/-- C1 (refuting evaluation): saving the mapping {A:1, B:2} over the
stored mapping {OLD:100}, with the delete and the first insert succeeding
and the second insert raising, leaves the user's table holding exactly
{A:1} and returns failure: the previously stored mapping is gone and only
part of the replacement has been applied, so the save is not atomic. -/
theorem save_partial_overwrite :
    saveUserHoldings [("OLD".toList, 100)] [("A".toList, 1), ("B".toList, 2)]
      (some 1) = ([("A".toList, 1)], false) ∧
    ([("A".toList, (1 : ℚ))] ≠ [("OLD".toList, 100)]) ∧
    ([("A".toList, (1 : ℚ))] ≠ [("A".toList, 1), ("B".toList, 2)]) :=
  ⟨by decide, by decide, by decide⟩

/-- C9: `parse_input` is total — every input yields a mapping, the empty
string yields the empty mapping, an empty name field is accepted as the
empty-string key, and the amounts nan and inf parse as floats rather than
raising. -/
theorem parse_input_total :
    (∀ text : Str, ∃ m : AList PyFloat, parseInput text = m) ∧
    parseInput "".toList = [] ∧
    parseInput ",5".toList = [(([] : Str), PyFloat.fin 5)] ∧
    parseInput "X,nan".toList = [("X".toList, PyFloat.nan)] ∧
    parseInput "X,inf".toList = [("X".toList, PyFloat.inf)] :=
  ⟨fun _ => ⟨_, rfl⟩, by decide, by decide, by decide, by decide⟩

/-- Folding the parse step over the lines is folding plain insertion over
the entries of the valid lines: skipped lines contribute nothing. -/
theorem foldl_parseStep_filterMap :
    ∀ (lines : List Str) (d : AList PyFloat),
      lines.foldl parseStep d = (lines.filterMap lineEntry).foldl insertStep d := by
  intro lines
  induction lines with
  | nil => intro d; rfl
  | cons l rest ih =>
    intro d
    rw [List.foldl_cons, List.filterMap_cons]
    cases h : lineEntry l with
    | none => rw [parseStep, h]; exact ih d
    | some e =>
      obtain ⟨n, v⟩ := e
      rw [parseStep, h, List.foldl_cons]
      exact ih _

/-- C4: a line that is empty after trimming, has no comma, splits into a
field count other than two, or has an amount rejected by float conversion
is skipped silently; consequently the parsed mapping is the fold of plain
insertions over only the valid lines. -/
theorem parse_skips_malformed :
    (∀ line : Str, malformedLine line = true → lineEntry line = none) ∧
    (∀ text : Str,
      parseInput text
        = ((splitOnChar '\n' (pyStrip text)).filterMap lineEntry).foldl
            insertStep []) := by
  constructor
  · intro line h
    simp only [malformedLine, Bool.or_eq_true, decide_eq_true_eq] at h
    obtain h | h := h
    · obtain h | h := h
      · obtain h | h := h
        · simp [lineEntry, h]
        · simp [lineEntry, h]
      · simp only [lineEntry]
        split
        · generalize splitOnChar ',' (pyStrip line) = ps at h ⊢
          rcases ps with _ | ⟨a, _ | ⟨b, _ | ⟨c, t⟩⟩⟩ <;> simp_all
        · rfl
    · simp only [lineEntry]
      split
      · generalize splitOnChar ',' (pyStrip line) = ps at h ⊢
        rcases ps with _ | ⟨a, _ | ⟨b, _ | ⟨c, t⟩⟩⟩ <;>
          simp_all [Option.isNone_iff_eq_none]
      · rfl
  · intro text
    exact foldl_parseStep_filterMap _ _

/-- Witness for C4: a three-field line is malformed and yields no entry. -/
theorem parse_skips_malformed_witness :
    malformedLine "ABC,DEF,5".toList = true ∧
    lineEntry "ABC,DEF,5".toList = none :=
  ⟨by decide, parse_skips_malformed.1 _ (by decide)⟩

/-- The keys of a cons are the head key followed by the tail keys. -/
theorem keysA_cons {V : Type} (e : Str × V) (rest : AList V) :
    keysA (e :: rest) = e.1 :: keysA rest := rfl

/-- Membership in the keys of a cons. -/
theorem mem_keysA_cons {V : Type} {k : Str} {e : Str × V} {rest : AList V} :
    k ∈ keysA (e :: rest) ↔ k = e.1 ∨ k ∈ keysA rest := by
  rw [keysA_cons]
  exact List.mem_cons

/-- Updating a present key in place binds it to the new value. -/
theorem lookupA_map_update {V : Type} (d : AList V) (k : Str) (v : V)
    (h : k ∈ keysA d) :
    lookupA (d.map (fun e => if e.1 = k then (k, v) else e)) k = some v := by
  induction d with
  | nil => exact absurd h (List.not_mem_nil k)
  | cons e rest ih =>
    by_cases he : e.1 = k
    · simp [lookupA, he]
    · have hr : k ∈ keysA rest := by
        rcases mem_keysA_cons.1 h with h' | h'
        · exact absurd h'.symm he
        · exact h'
      simp [lookupA, he, ih hr]

/-- Appending a fresh entry at the end binds its key. -/
theorem lookupA_append_single {V : Type} (d : AList V) (k : Str) (v : V)
    (h : k ∉ keysA d) : lookupA (d ++ [(k, v)]) k = some v := by
  induction d with
  | nil => simp [lookupA]
  | cons e rest ih =>
    have he : ¬(e.1 = k) := fun heq => h (mem_keysA_cons.2 (Or.inl heq.symm))
    have hr : k ∉ keysA rest := fun hm => h (mem_keysA_cons.2 (Or.inr hm))
    simp [lookupA, he, ih hr]

/-- Appending an entry with a different key does not change a lookup. -/
theorem lookupA_append_single_ne {V : Type} (d : AList V) (k k' : Str) (v : V)
    (h : k ≠ k') : lookupA (d ++ [(k', v)]) k = lookupA d k := by
  induction d with
  | nil =>
    have : ¬(k' = k) := fun heq => h heq.symm
    simp [lookupA, this]
  | cons e rest ih =>
    by_cases he : e.1 = k
    · simp [lookupA, he]
    · simp [lookupA, he, ih]

/-- In-place update of another key does not change a lookup. -/
theorem lookupA_map_update_ne {V : Type} (d : AList V) (k k' : Str) (v : V)
    (h : k ≠ k') :
    lookupA (d.map (fun e => if e.1 = k' then (k', v) else e)) k
      = lookupA d k := by
  induction d with
  | nil => rfl
  | cons e rest ih =>
    by_cases he : e.1 = k'
    · have h1 : ¬(k' = k) := fun heq => h heq.symm
      have h2 : ¬(e.1 = k) := fun heq => h (heq.symm.trans he)
      simp [lookupA, he, h1, h2, ih]
    · by_cases hek : e.1 = k
      · simp [lookupA, he, hek, h]
      · simp [lookupA, he, hek, ih]

/-- Dict insertion binds the inserted key to the inserted value. -/
theorem lookupA_insertA_self {V : Type} (d : AList V) (k : Str) (v : V) :
    lookupA (insertA d k v) k = some v := by
  rw [insertA]
  split
  · exact lookupA_map_update d k v (by assumption)
  · exact lookupA_append_single d k v (by assumption)

/-- Dict insertion of another key does not change a lookup. -/
theorem lookupA_insertA_ne {V : Type} (d : AList V) (k k' : Str) (v : V)
    (h : k ≠ k') : lookupA (insertA d k' v) k = lookupA d k := by
  rw [insertA]
  split
  · exact lookupA_map_update_ne d k k' v h
  · exact lookupA_append_single_ne d k k' v h

/-- A lookup after folding insertions returns the value of the last entry
for that key, falling back to the initial dict when the key never
occurs. -/
theorem lookupA_foldl_insertStep {V : Type} :
    ∀ (es : List (Str × V)) (d : AList V) (k : Str),
      lookupA (es.foldl insertStep d) k
        = ((es.filterMap (fun e => if e.1 = k then some e.2 else none)).getLast?
            <|> lookupA d k) := by
  intro es
  induction es with
  | nil => intro d k; rfl
  | cons e rest ih =>
    intro d k
    rw [List.foldl_cons, insertStep, ih]
    by_cases hek : e.1 = k
    · have hfil :
          (e :: rest).filterMap (fun x => if x.1 = k then some x.2 else none)
            = e.2 :: rest.filterMap (fun x => if x.1 = k then some x.2 else none) := by
        rw [List.filterMap_cons, if_pos hek]
      rw [hfil]
      by_cases hrest :
          rest.filterMap (fun x => if x.1 = k then some x.2 else none) = []
      · rw [hrest, ← hek]
        simp [lookupA_insertA_self]
      · obtain ⟨y, hy⟩ : ∃ y,
            (rest.filterMap
              (fun x => if x.1 = k then some x.2 else none)).getLast? = some y :=
          ⟨_, List.getLast?_eq_getLast _ hrest⟩
        have hcons :
            (e.2 :: rest.filterMap
              (fun x => if x.1 = k then some x.2 else none)).getLast? = some y := by
          rw [show (e.2 :: rest.filterMap
                (fun x => if x.1 = k then some x.2 else none))
              = [e.2] ++ rest.filterMap
                (fun x => if x.1 = k then some x.2 else none) from rfl,
            List.getLast?_append_of_ne_nil _ hrest, hy]
        rw [hy, hcons]
        simp
    · have hfil :
          (e :: rest).filterMap (fun x => if x.1 = k then some x.2 else none)
            = rest.filterMap (fun x => if x.1 = k then some x.2 else none) := by
        rw [List.filterMap_cons, if_neg hek]
      rw [hfil, lookupA_insertA_ne d k e.1 e.2 (fun heq => hek heq.symm)]

/-- C5: when the same trimmed name occurs on several valid lines, the
parsed mapping binds that name to the amount of the last such line
(overwrite, not accumulation); in particular parsing
two lines X,10 and X,20 yields the single binding X to 20. -/
theorem parse_last_occurrence_wins (text name : Str)
    (h : validEntriesFor text name ≠ []) :
    lookupA (parseInput text) name
      = some ((validEntriesFor text name).getLast h) ∧
    parseInput "X,10\nX,20".toList = [("X".toList, PyFloat.fin 20)] := by
  constructor
  · have hfm : validEntriesFor text name
        = ((splitOnChar '\n' (pyStrip text)).filterMap lineEntry).filterMap
            (fun e => if e.1 = name then some e.2 else none) := by
      rw [List.filterMap_filterMap]
      unfold validEntriesFor
      congr 1
      funext line
      cases hl : lineEntry line with
      | none => rfl
      | some e =>
        obtain ⟨n, v⟩ := e
        rfl
    rw [show parseInput text
          = ((splitOnChar '\n' (pyStrip text)).filterMap lineEntry).foldl
              insertStep [] from foldl_parseStep_filterMap _ _,
      lookupA_foldl_insertStep, ← hfm, List.getLast?_eq_getLast _ h]
    rfl
  · decide

/-- Witness for C5: the duplicate-name example from the spec. -/
theorem parse_last_occurrence_wins_witness :
    validEntriesFor "X,10\nX,20".toList "X".toList ≠ [] ∧
    lookupA (parseInput "X,10\nX,20".toList) "X".toList
      = some (PyFloat.fin 20) := by
  have h : validEntriesFor "X,10\nX,20".toList "X".toList ≠ [] := by decide
  refine ⟨h, (((parse_last_occurrence_wins _ _ h).1).trans
    (List.getLast?_eq_getLast _ h).symm).trans ?_⟩
  decide

/-- C7: on a non-empty series of strictly positive closes, the normalized
series has the same length, value i equals close i divided by the first
close times 100, its first point is exactly 100, and the total-return
statistic is (last close / first close - 1) * 100. -/
theorem normalize_base100 (closes : List ℚ) (hne : closes ≠ [])
    (hpos : ∀ c ∈ closes, 0 < c) :
    (normalizeSeries closes).length = closes.length ∧
    (normalizeSeries closes).head? = some 100 ∧
    (∀ (i : ℕ) (hi : i < closes.length)
        (hi' : i < (normalizeSeries closes).length),
      (normalizeSeries closes).get ⟨i, hi'⟩
        = closes.get ⟨i, hi⟩ / closes.head hne * 100) ∧
    totalReturnPct closes
      = (closes.getLast hne / closes.head hne - 1) * 100 := by
  match closes, hne with
  | c0 :: rest, _ =>
    have hc0 : 0 < c0 := hpos c0 (List.mem_cons_self c0 rest)
    refine ⟨?_, ?_, ?_, ?_⟩
    · simp [normalizeSeries]
    · show ((c0 :: rest).map (fun c => c / c0 * 100)).head? = some 100
      simp [div_self (ne_of_gt hc0)]
    · intro i hi hi'
      show ((c0 :: rest).map (fun c => c / c0 * 100)).get ⟨i, hi'⟩ = _
      rcases i with _ | j
      · rfl
      · simp [List.getElem_cons_succ, List.getElem_map]
    · rfl

/-- Witness for C7: the two-point series [2, 4]. -/
theorem normalize_base100_witness :
    ([2, 4] : List ℚ) ≠ [] ∧ (∀ c ∈ ([2, 4] : List ℚ), 0 < c) ∧
    (normalizeSeries [2, 4]).head? = some 100 :=
  ⟨by decide, by norm_num,
    (normalize_base100 [2, 4] (by decide) (by norm_num)).2.1⟩

/-- The chart loop is the per-ticker trace and warning maps: each ticker
contributes independently of the others. -/
theorem chartLoop_eq (fetch : Str → FetchResult) :
    ∀ tickers : List Str,
      chartLoop fetch tickers
        = (tickers.filterMap (traceOf fetch), tickers.filterMap (warnOf fetch)) := by
  intro tickers
  induction tickers with
  | nil => rfl
  | cons t ts ih =>
    simp only [chartLoop, ih, List.filterMap_cons]
    cases hf : fetch t with
    | ok closes =>
      by_cases hc : closes = []
      · simp [traceOf, warnOf, hf, hc]
      · simp [traceOf, warnOf, hf, hc]
    | raised m => simp [traceOf, warnOf, hf]

/-- The statistics loop is the per-ticker statistics map: each ticker
contributes independently of the others. -/
theorem statsLoop_eq (fetch : Str → FetchResult) :
    ∀ tickers : List Str,
      statsLoop fetch tickers = tickers.filterMap (statOf fetch) := by
  intro tickers
  induction tickers with
  | nil => rfl
  | cons t ts ih =>
    simp only [statsLoop, ih, List.filterMap_cons]
    cases hf : fetch t with
    | ok closes =>
      cases closes with
      | nil => simp [statOf, hf]
      | cons c0 cs => simp [statOf, hf]
    | raised m => simp [statOf, hf]

/-- C8: per-instrument isolation of the performance view. The traces,
warnings and statistics rows are per-ticker maps over the ticker list, so
a raised fetch or an empty series for one ticker cannot suppress another
ticker's output: every ticker whose chart fetch succeeds with a non-empty
series gets its normalized trace, every ticker whose fetch raises gets a
warning, and every ticker whose statistics fetch succeeds with a
non-empty series gets its statistics row (once any trace exists at
all). -/
theorem per_instrument_isolation (fetch1 fetch2 : Str → FetchResult)
    (tickers : List Str) :
    (chartLoop fetch1 tickers).1 = tickers.filterMap (traceOf fetch1) ∧
    (chartLoop fetch1 tickers).2 = tickers.filterMap (warnOf fetch1) ∧
    statsLoop fetch2 tickers = tickers.filterMap (statOf fetch2) ∧
    (∀ (t : Str) (closes : List ℚ), t ∈ tickers → fetch1 t = .ok closes →
      closes ≠ [] →
      (t, normalizeSeries closes) ∈ (performanceView fetch1 fetch2 tickers).1) ∧
    (∀ (t m : Str), t ∈ tickers → fetch1 t = .raised m →
      t ∈ (performanceView fetch1 fetch2 tickers).2.1) ∧
    (∀ (t : Str) (c0 : ℚ) (cs : List ℚ), t ∈ tickers →
      fetch2 t = .ok (c0 :: cs) → (chartLoop fetch1 tickers).1 ≠ [] →
      (t, totalReturnPct (c0 :: cs), (c0 :: cs).getLast (List.cons_ne_nil c0 cs))
        ∈ (performanceView fetch1 fetch2 tickers).2.2) := by
  refine ⟨by rw [chartLoop_eq], by rw [chartLoop_eq],
    statsLoop_eq fetch2 tickers, ?_, ?_, ?_⟩
  · intro t closes ht hf hne
    show (t, normalizeSeries closes) ∈ (chartLoop fetch1 tickers).1
    rw [chartLoop_eq]
    exact List.mem_filterMap.2 ⟨t, ht, by simp [traceOf, hf, hne]⟩
  · intro t m ht hf
    show t ∈ (chartLoop fetch1 tickers).2
    rw [chartLoop_eq]
    exact List.mem_filterMap.2 ⟨t, ht, by simp [warnOf, hf]⟩
  · intro t c0 cs ht hf htr
    show (t, totalReturnPct (c0 :: cs),
        (c0 :: cs).getLast (List.cons_ne_nil c0 cs))
      ∈ (performanceView fetch1 fetch2 tickers).2.2
    simp only [performanceView, if_neg htr]
    rw [statsLoop_eq]
    exact List.mem_filterMap.2 ⟨t, ht, by simp [statOf, hf]⟩

/-- Witness for C8: with ticker AAA raising and ticker BBB returning the
series [2, 3], BBB's trace is produced and AAA is warned about. -/
theorem per_instrument_isolation_witness :
    ("BBB".toList ∈ ["AAA".toList, "BBB".toList] ∧
      fetchEx "BBB".toList = .ok [2, 3] ∧ ([2, 3] : List ℚ) ≠ []) ∧
    ("BBB".toList, normalizeSeries [2, 3])
      ∈ (performanceView fetchEx fetchEx ["AAA".toList, "BBB".toList]).1 ∧
    "AAA".toList
      ∈ (performanceView fetchEx fetchEx ["AAA".toList, "BBB".toList]).2.1 :=
  ⟨⟨by decide, by rfl, by decide⟩,
    (per_instrument_isolation fetchEx fetchEx _).2.2.2.1 "BBB".toList [2, 3]
      (by decide) (by rfl) (by decide),
    (per_instrument_isolation fetchEx fetchEx _).2.2.2.2.1 "AAA".toList
      "boom".toList (by decide) (by rfl)⟩

/-- Half-to-even rounding on a value below the midpoint. -/
theorem roundHE_of_lt_half (x : ℚ) (n : ℤ) (h1 : (n : ℚ) ≤ x)
    (h2 : x < n + 1 / 2) : roundHE x = n := by
  have hf : ⌊x⌋ = n := Int.floor_eq_iff.2 ⟨h1, by linarith⟩
  have hc : x - ((⌊x⌋ : ℤ) : ℚ) < 1 / 2 := by rw [hf]; linarith
  simp only [roundHE]
  rw [if_pos hc, hf]

/-- Half-to-even rounding on a value above the midpoint. -/
theorem roundHE_of_gt_half (x : ℚ) (n : ℤ) (h1 : (n : ℚ) + 1 / 2 < x)
    (h2 : x < n + 1) : roundHE x = n + 1 := by
  have hf : ⌊x⌋ = n := Int.floor_eq_iff.2 ⟨by linarith, h2⟩
  have hc1 : ¬(x - ((⌊x⌋ : ℤ) : ℚ) < 1 / 2) := by rw [hf]; push_neg; linarith
  have hc2 : 1 / 2 < x - ((⌊x⌋ : ℤ) : ℚ) := by rw [hf]; linarith
  simp only [roundHE]
  rw [if_neg hc1, if_pos hc2, hf]

/-- Half-to-even rounding moves a value by at most one half. -/
theorem roundHE_sub_abs_le (x : ℚ) : |(roundHE x : ℚ) - x| ≤ 1 / 2 := by
  have h0 : 0 ≤ x - ((⌊x⌋ : ℤ) : ℚ) := by
    have := Int.floor_le x
    linarith
  have h1 : x - ((⌊x⌋ : ℤ) : ℚ) < 1 := by
    have := Int.lt_floor_add_one x
    linarith
  simp only [roundHE]
  split_ifs with hc1 hc2 hc3 <;> rw [abs_le] <;> constructor <;> push_cast <;>
    linarith

/-- Rounding to two decimals moves a value by at most half a cent. -/
theorem round2_sub_abs_le (x : ℚ) : |round2 x - x| ≤ 1 / 200 := by
  have h := roundHE_sub_abs_le (x * 100)
  have heq : round2 x - x = ((roundHE (x * 100) : ℚ) - x * 100) / 100 := by
    rw [round2]; ring
  rw [heq, abs_div]
  rw [show |(100 : ℚ)| = 100 from by norm_num]
  linarith [h]

/-- The sum of two-decimal roundings differs from the exact sum by at
most half a cent per element. -/
theorem abs_sum_map_round2_sub (l : List ℚ) :
    |(l.map round2).sum - l.sum| ≤ l.length * (1 / 200) := by
  induction l with
  | nil => simp
  | cons a t ih =>
    simp only [List.map_cons, List.sum_cons, List.length_cons]
    have heq : round2 a + (t.map round2).sum - (a + t.sum)
        = (round2 a - a) + ((t.map round2).sum - t.sum) := by ring
    rw [heq]
    calc |(round2 a - a) + ((t.map round2).sum - t.sum)|
        ≤ |round2 a - a| + |(t.map round2).sum - t.sum| := abs_add _ _
      _ ≤ 1 / 200 + t.length * (1 / 200) :=
          add_le_add (round2_sub_abs_le a) ih
      _ = (t.length + 1) * (1 / 200) := by ring
      _ = ((t.length + 1 : ℕ) : ℚ) * (1 / 200) := by push_cast; ring

/-- The exact percentages of a list of entries sum to the total share. -/
theorem sum_map_pct (assets : AList ℚ) (total : ℚ) :
    (assets.map (fun e => e.2 / total * 100)).sum
      = (assets.map Prod.snd).sum / total * 100 := by
  induction assets with
  | nil => simp
  | cons e t ih =>
    simp only [List.map_cons, List.sum_cons, ih]
    ring

/-- Every α with a some-valued function filterMaps to its map. -/
theorem filterMap_some_comp {α β : Type} (l : List α) (f : α → β) :
    l.filterMap (fun x => some (f x)) = l.map f := by
  induction l with
  | nil => rfl
  | cons a t ih => simp [List.filterMap_cons, ih]

/-- C2 (refuting evaluation): the ETF mapping {A: 0} with an empty SCPI
mapping has grand total 0, yet the allocation view is not empty: it holds
one row for A whose percentage is the non-finite result of dividing by
the zero total. -/
theorem allocation_zero_total_counterexample :
    grandTotal (allAssets [("A".toList, 0)] []) = 0 ∧
    allocationRows [("A".toList, 0)] [] = [("ETF: A".toList, 0, none)] ∧
    allocationRows [("A".toList, 0)] [] ≠ [] := by
  have h1 : allAssets [("A".toList, (0 : ℚ))] [] = [("ETF: A".toList, (0 : ℚ))] := by
    decide
  have h2 : grandTotal [("ETF: A".toList, (0 : ℚ))] = 0 := by
    simp [grandTotal]
  have h3 : allocationRows [("A".toList, 0)] [] = [("ETF: A".toList, 0, none)] := by
    simp only [allocationRows, h1, h2]
    norm_num
  exact ⟨h1 ▸ h2, h3, by rw [h3]; simp⟩

/-- C2 (amended): the allocation view is empty exactly when the combined
asset mapping is empty; when the mapping is non-empty but the grand total
is 0, rows are still produced and every percentage is the undefined
(non-finite) result of the division by zero. -/
theorem allocation_empty_iff_no_assets (etf scpi : AList ℚ) :
    (allocationRows etf scpi = [] ↔ allAssets etf scpi = []) ∧
    (allAssets etf scpi ≠ [] → grandTotal (allAssets etf scpi) = 0 →
      allocationRows etf scpi ≠ [] ∧
      ∀ r ∈ allocationRows etf scpi, r.2.2 = none) := by
  constructor
  · constructor
    · intro h
      by_contra hne
      rw [show allocationRows etf scpi
          = (allAssets etf scpi).map (fun e =>
              (e.1, e.2, if grandTotal (allAssets etf scpi) = 0 then none
                else some (round2 (e.2 / grandTotal (allAssets etf scpi) * 100))))
          from by simp only [allocationRows, if_neg hne]] at h
      exact hne (List.map_eq_nil_iff.1 h)
    · intro h
      simp [allocationRows, h]
  · intro hne h0
    have hrows : allocationRows etf scpi
        = (allAssets etf scpi).map (fun e => (e.1, e.2, (none : Option ℚ))) := by
      simp only [allocationRows, if_neg hne, if_pos h0]
    constructor
    · rw [hrows]
      intro hm
      exact hne (List.map_eq_nil_iff.1 hm)
    · intro r hr
      rw [hrows] at hr
      obtain ⟨e, he, rfl⟩ := List.mem_map.1 hr
      rfl

/-- Witness for C2's amended claim: the zero-amount mapping produces a
non-empty allocation view with an undefined percentage. -/
theorem allocation_empty_iff_no_assets_witness :
    allAssets [("A".toList, (0 : ℚ))] [] ≠ [] ∧
    grandTotal (allAssets [("A".toList, (0 : ℚ))] []) = 0 ∧
    allocationRows [("A".toList, 0)] [] ≠ [] := by
  have h1 : allAssets [("A".toList, (0 : ℚ))] [] = [("ETF: A".toList, (0 : ℚ))] := by
    decide
  have hne : allAssets [("A".toList, (0 : ℚ))] [] ≠ [] := by
    rw [h1]; simp
  have h0 : grandTotal (allAssets [("A".toList, (0 : ℚ))] []) = 0 := by
    rw [h1]; simp [grandTotal]
  exact ⟨hne, h0,
    ((allocation_empty_iff_no_assets [("A".toList, 0)] []).2 hne h0).1⟩

/-- C6 (refuting evaluation): with seven holdings of equal amount 1, each
percentage rounds to 14.29 and the percentage column sums to 100.03,
which is not within the claimed 0.01 of 100. -/
theorem allocation_sum_tolerance_counterexample :
    grandTotal (allAssets
      [("A1".toList, 1), ("A2".toList, 1), ("A3".toList, 1), ("A4".toList, 1),
       ("A5".toList, 1), ("A6".toList, 1), ("A7".toList, 1)] []) = 7 ∧
    ((allocationRows
      [("A1".toList, 1), ("A2".toList, 1), ("A3".toList, 1), ("A4".toList, 1),
       ("A5".toList, 1), ("A6".toList, 1), ("A7".toList, 1)] []).filterMap
        (fun r => r.2.2)).sum = 10003 / 100 ∧
    ¬ |((allocationRows
      [("A1".toList, 1), ("A2".toList, 1), ("A3".toList, 1), ("A4".toList, 1),
       ("A5".toList, 1), ("A6".toList, 1), ("A7".toList, 1)] []).filterMap
        (fun r => r.2.2)).sum - 100| ≤ 1 / 100 := by
  have h1 : allAssets
      [("A1".toList, (1 : ℚ)), ("A2".toList, 1), ("A3".toList, 1),
       ("A4".toList, 1), ("A5".toList, 1), ("A6".toList, 1), ("A7".toList, 1)] []
      = [("ETF: A1".toList, (1 : ℚ)), ("ETF: A2".toList, 1), ("ETF: A3".toList, 1),
         ("ETF: A4".toList, 1), ("ETF: A5".toList, 1), ("ETF: A6".toList, 1),
         ("ETF: A7".toList, 1)] := by decide
  have htot : grandTotal
      [("ETF: A1".toList, (1 : ℚ)), ("ETF: A2".toList, 1), ("ETF: A3".toList, 1),
       ("ETF: A4".toList, 1), ("ETF: A5".toList, 1), ("ETF: A6".toList, 1),
       ("ETF: A7".toList, 1)] = 7 := by
    simp [grandTotal]
    norm_num
  have hr : round2 ((1 : ℚ) / 7 * 100) = 1429 / 100 := by
    have harg : (1 : ℚ) / 7 * 100 * 100 = 10000 / 7 := by norm_num
    have hround : roundHE ((10000 : ℚ) / 7) = 1429 := by
      have h14 := roundHE_of_gt_half ((10000 : ℚ) / 7) 1428
        (by push_cast; norm_num) (by push_cast; norm_num)
      rw [h14]
      norm_num
    rw [round2, harg, hround]
    norm_num
  have hrows : allocationRows
      [("A1".toList, (1 : ℚ)), ("A2".toList, 1), ("A3".toList, 1),
       ("A4".toList, 1), ("A5".toList, 1), ("A6".toList, 1), ("A7".toList, 1)] []
      = [("ETF: A1".toList, 1, some (1429 / 100)),
         ("ETF: A2".toList, 1, some (1429 / 100)),
         ("ETF: A3".toList, 1, some (1429 / 100)),
         ("ETF: A4".toList, 1, some (1429 / 100)),
         ("ETF: A5".toList, 1, some (1429 / 100)),
         ("ETF: A6".toList, 1, some (1429 / 100)),
         ("ETF: A7".toList, 1, some (1429 / 100))] := by
    simp only [allocationRows, h1, htot]
    rw [if_neg (by simp : ¬(([("ETF: A1".toList, (1 : ℚ)), ("ETF: A2".toList, 1),
      ("ETF: A3".toList, 1), ("ETF: A4".toList, 1), ("ETF: A5".toList, 1),
      ("ETF: A6".toList, 1), ("ETF: A7".toList, 1)] : AList ℚ) = []))]
    simp only [List.map_cons, List.map_nil,
      if_neg (by norm_num : ¬((7 : ℚ) = 0)), hr]
  refine ⟨h1 ▸ htot, ?_, ?_⟩
  · rw [hrows]
    simp [List.filterMap_cons]
    norm_num
  · rw [hrows]
    simp only [List.filterMap_cons, List.filterMap_nil, List.sum_cons,
      List.sum_nil, not_le]
    have habs : |(1429 : ℚ) / 100 + (1429 / 100 + (1429 / 100 + (1429 / 100 +
        (1429 / 100 + (1429 / 100 + (1429 / 100 + 0)))))) - 100| = 3 / 100 := by
      rw [show (1429 : ℚ) / 100 + (1429 / 100 + (1429 / 100 + (1429 / 100 +
        (1429 / 100 + (1429 / 100 + (1429 / 100 + 0)))))) - 100 = 3 / 100 from by
          norm_num]
      exact abs_of_nonneg (by norm_num)
    rw [habs]
    norm_num

/-- C6 (amended): whenever the grand total is strictly positive, every
allocation row's percentage is the row's amount divided by the grand
total, times 100, rounded to two decimals; the percentage column sums to
100 within half a cent per row (not within 0.01 overall); and the 60/40
example yields exactly the percentages 60.00 and 40.00. -/
theorem allocation_percentage_formula (etf scpi : AList ℚ)
    (h : 0 < grandTotal (allAssets etf scpi)) :
    (∀ r ∈ allocationRows etf scpi,
      r.2.2 = some (round2 (r.2.1 / grandTotal (allAssets etf scpi) * 100))) ∧
    |((allocationRows etf scpi).filterMap (fun r => r.2.2)).sum - 100|
      ≤ (allocationRows etf scpi).length * (1 / 200) ∧
    (allocationRows [("A".toList, 60)] [("B".toList, 40)]).map (fun r => r.2.2)
      = [some 60, some 40] := by
  have htz : grandTotal (allAssets etf scpi) ≠ 0 := ne_of_gt h
  have hne : allAssets etf scpi ≠ [] := by
    intro heq
    rw [heq] at h
    simp [grandTotal] at h
  have hrows : allocationRows etf scpi
      = (allAssets etf scpi).map (fun e =>
          (e.1, e.2,
            some (round2 (e.2 / grandTotal (allAssets etf scpi) * 100)))) := by
    simp only [allocationRows, if_neg hne, if_neg htz]
  refine ⟨?_, ?_, ?_⟩
  · intro r hr
    rw [hrows] at hr
    obtain ⟨e, he, rfl⟩ := List.mem_map.1 hr
    rfl
  · have hfm : ((allocationRows etf scpi).filterMap (fun r => r.2.2))
        = ((allAssets etf scpi).map
            (fun e => e.2 / grandTotal (allAssets etf scpi) * 100)).map round2 := by
      rw [hrows, List.filterMap_map]
      rw [show ((fun r : Str × ℚ × Option ℚ => r.2.2) ∘ (fun e : Str × ℚ =>
          (e.1, e.2, some (round2 (e.2 / grandTotal (allAssets etf scpi) * 100)))))
          = fun e : Str × ℚ =>
              some (round2 (e.2 / grandTotal (allAssets etf scpi) * 100))
        from rfl]
      rw [filterMap_some_comp, List.map_map]
      rfl
    have hsum : ((allAssets etf scpi).map
        (fun e => e.2 / grandTotal (allAssets etf scpi) * 100)).sum = 100 := by
      rw [sum_map_pct]
      rw [show ((allAssets etf scpi).map Prod.snd).sum
          = grandTotal (allAssets etf scpi) from rfl]
      rw [div_self htz]
      norm_num
    have hlen : (allocationRows etf scpi).length
        = ((allAssets etf scpi).map
            (fun e => e.2 / grandTotal (allAssets etf scpi) * 100)).length := by
      rw [hrows, List.length_map, List.length_map]
    rw [hfm, hlen]
    have hb := abs_sum_map_round2_sub
      ((allAssets etf scpi).map
        (fun e => e.2 / grandTotal (allAssets etf scpi) * 100))
    rw [hsum] at hb
    exact hb
  · have h1 : allAssets [("A".toList, (60 : ℚ))] [("B".toList, (40 : ℚ))]
        = [("ETF: A".toList, (60 : ℚ)), ("SCPI: B".toList, (40 : ℚ))] := by
      decide
    have htot : grandTotal
        [("ETF: A".toList, (60 : ℚ)), ("SCPI: B".toList, (40 : ℚ))] = 100 := by
      simp [grandTotal]
      norm_num
    have hr60 : round2 ((60 : ℚ) / 100 * 100) = 60 := by
      have harg : (60 : ℚ) / 100 * 100 * 100 = 6000 := by norm_num
      have hround : roundHE ((6000 : ℚ)) = 6000 :=
        roundHE_of_lt_half _ 6000 (by push_cast; norm_num) (by push_cast; norm_num)
      rw [round2, harg, hround]
      norm_num
    have hr40 : round2 ((40 : ℚ) / 100 * 100) = 40 := by
      have harg : (40 : ℚ) / 100 * 100 * 100 = 4000 := by norm_num
      have hround : roundHE ((4000 : ℚ)) = 4000 :=
        roundHE_of_lt_half _ 4000 (by push_cast; norm_num) (by push_cast; norm_num)
      rw [round2, harg, hround]
      norm_num
    have hrows2 : allocationRows [("A".toList, 60)] [("B".toList, 40)]
        = [("ETF: A".toList, 60, some (round2 ((60 : ℚ) / 100 * 100))),
           ("SCPI: B".toList, 40, some (round2 ((40 : ℚ) / 100 * 100)))] := by
      simp only [allocationRows, h1, htot]
      rw [if_neg (by simp : ¬(([("ETF: A".toList, (60 : ℚ)),
        ("SCPI: B".toList, (40 : ℚ))] : AList ℚ) = []))]
      simp only [List.map_cons, List.map_nil,
        if_neg (by norm_num : ¬((100 : ℚ) = 0))]
    rw [hrows2, hr60, hr40]
    rfl

/-- Witness for C6's amended claim: the 60/40 example has positive grand
total and exact percentages 60.00 and 40.00. -/
theorem allocation_percentage_formula_witness :
    0 < grandTotal (allAssets [("A".toList, 60)] [("B".toList, 40)]) ∧
    (allocationRows [("A".toList, 60)] [("B".toList, 40)]).map (fun r => r.2.2)
      = [some 60, some 40] := by
  have h1 : allAssets [("A".toList, (60 : ℚ))] [("B".toList, (40 : ℚ))]
      = [("ETF: A".toList, (60 : ℚ)), ("SCPI: B".toList, (40 : ℚ))] := by
    decide
  have hpos : 0 < grandTotal (allAssets [("A".toList, (60 : ℚ))]
      [("B".toList, (40 : ℚ))]) := by
    rw [h1]
    simp [grandTotal]
    norm_num
  exact ⟨hpos,
    (allocation_percentage_formula [("A".toList, 60)] [("B".toList, 40)] hpos).2.2⟩

/-- A digit character is not whitespace, not a comma, not a newline and
not a dot. -/
theorem digit_char_props (c : Char) (h : c.isDigit = true) :
    isPySpace c = false ∧ c ≠ ',' ∧ c ≠ '\n' ∧ c ≠ '.' := by
  refine ⟨?_, ?_, ?_, ?_⟩
  · cases hc : isPySpace c
    · rfl
    · exfalso
      simp only [isPySpace, Bool.or_eq_true, beq_iff_eq] at hc
      obtain h' | h' := hc
      · obtain h' | h' := h'
        · obtain h' | h' := h'
          · obtain h' | h' := h'
            · obtain h' | h' := h'
              · subst h'; exact absurd h (by decide)
              · subst h'; exact absurd h (by decide)
            · subst h'; exact absurd h (by decide)
          · subst h'; exact absurd h (by decide)
        · subst h'; exact absurd h (by decide)
      · subst h'; exact absurd h (by decide)
  · exact fun heq => absurd (heq ▸ h) (by decide)
  · exact fun heq => absurd (heq ▸ h) (by decide)
  · exact fun heq => absurd (heq ▸ h) (by decide)

/-- The character of a digit below ten has the expected code point. -/
theorem toNat_digitToChar (d : ℕ) (h : d < 10) :
    (digitToChar d).toNat = 48 + d := by
  interval_cases d <;> decide

/-- The character of a digit below ten is a digit character. -/
theorem isDigit_digitToChar (d : ℕ) (h : d < 10) :
    (digitToChar d).isDigit = true := by
  interval_cases d <;> decide

/-- Every character produced by the digit renderer is a digit. -/
theorem mem_natDigitsAux_isDigit :
    ∀ (fuel n : ℕ), ∀ c ∈ natDigitsAux fuel n, c.isDigit = true := by
  intro fuel
  induction fuel with
  | zero =>
    intro n c hc
    simp [natDigitsAux] at hc
  | succ f ih =>
    intro n c hc
    match n with
    | 0 => simp [natDigitsAux] at hc
    | m + 1 =>
      rw [natDigitsAux] at hc
      rcases List.mem_append.1 hc with h' | h'
      · exact ih _ c h'
      · rw [List.mem_singleton] at h'
        subst h'
        exact isDigit_digitToChar _ (Nat.mod_lt _ (by norm_num))

/-- Appending one character multiplies the accumulated value by ten. -/
theorem digitsVal_concat (a : Str) (c : Char) :
    digitsVal (a ++ [c]) = (digitsVal a) * 10 + (c.toNat - 48) := by
  rw [digitsVal, List.foldl_append]
  rfl

/-- The digit renderer and the digit evaluator are inverse. -/
theorem digitsVal_natDigitsAux :
    ∀ (fuel n : ℕ), n ≤ fuel → digitsVal (natDigitsAux fuel n) = n := by
  intro fuel
  induction fuel with
  | zero =>
    intro n h
    interval_cases n
    rfl
  | succ f ih =>
    intro n h
    match n with
    | 0 => rfl
    | m + 1 =>
      have hdiv : (m + 1) / 10 ≤ f := by
        have := Nat.div_lt_self (Nat.succ_pos m) (by norm_num : 1 < 10)
        omega
      rw [natDigitsAux, digitsVal_concat, ih _ hdiv,
        toNat_digitToChar _ (Nat.mod_lt _ (by norm_num))]
      omega

/-- The digit renderer and the digit evaluator are inverse. -/
theorem digitsVal_natDigits (n : ℕ) : digitsVal (natDigits n) = n :=
  digitsVal_natDigitsAux n n le_rfl

/-- Leading zero characters do not change the evaluated value. -/
theorem digitsVal_replicate_zero (j : ℕ) (l : Str) :
    digitsVal (List.replicate j '0' ++ l) = digitsVal l := by
  induction j with
  | zero => rfl
  | succ i ih =>
    rw [List.replicate_succ, List.cons_append, digitsVal, List.foldl_cons]
    rw [show (0 * 10 + ('0'.toNat - 48)) = 0 from by decide]
    exact ih

/-- Padding with zeros does not change the evaluated value. -/
theorem digitsVal_padZeros (k : ℕ) (l : Str) :
    digitsVal (padZeros k l) = digitsVal l :=
  digitsVal_replicate_zero _ _

/-- Padding to at least the current length gives exactly that length. -/
theorem length_padZeros (k : ℕ) (l : Str) (h : l.length ≤ k) :
    (padZeros k l).length = k := by
  rw [padZeros, List.length_append, List.length_replicate]
  omega

/-- Every character of a zero-padded digit string is a digit. -/
theorem mem_padZeros_isDigit (k : ℕ) (l : Str)
    (h : ∀ c ∈ l, c.isDigit = true) :
    ∀ c ∈ padZeros k l, c.isDigit = true := by
  intro c hc
  rcases List.mem_append.1 hc with h' | h'
  · rw [List.eq_of_mem_replicate h']
    decide
  · exact h c h'

/-- A number below the k-th power of ten has at most k digits. -/
theorem length_natDigitsAux_le :
    ∀ (fuel n k : ℕ), n < 10 ^ k → (natDigitsAux fuel n).length ≤ k := by
  intro fuel
  induction fuel with
  | zero =>
    intro n k _
    simp [natDigitsAux]
  | succ f ih =>
    intro n k h
    match n with
    | 0 => simp [natDigitsAux]
    | m + 1 =>
      rcases k with _ | k'
      · rw [pow_zero] at h
        omega
      · rw [natDigitsAux, List.length_append, List.length_singleton]
        have hdiv : (m + 1) / 10 < 10 ^ k' := by
          rw [Nat.div_lt_iff_lt_mul (by norm_num : 0 < 10)]
          calc m + 1 < 10 ^ (k' + 1) := h
            _ = 10 ^ k' * 10 := by ring
        have := ih ((m + 1) / 10) k' hdiv
        omega

/-- The digit rendering of a positive number is non-empty. -/
theorem natDigits_ne_nil (n : ℕ) (h : n ≠ 0) : natDigits n ≠ [] := by
  match n, h with
  | m + 1, _ =>
    rw [natDigits, natDigitsAux]
    simp

/-- Splitting a string free of the separator yields one field. -/
theorem splitOnChar_of_not_mem (sep : Char) (l : Str) (h : sep ∉ l) :
    splitOnChar sep l = [l] := by
  induction l with
  | nil => rfl
  | cons c cs ih =>
    have hc : ¬(c = sep) := fun heq => h (heq ▸ List.mem_cons_self c cs)
    have hcs : sep ∉ cs := fun hm => h (List.mem_cons_of_mem c hm)
    simp only [splitOnChar, if_neg hc, ih hcs]

/-- Splitting past the first separator occurrence cuts off the first
field. -/
theorem splitOnChar_append_cons (sep : Char) (a b : Str) (h : sep ∉ a) :
    splitOnChar sep (a ++ sep :: b) = a :: splitOnChar sep b := by
  induction a with
  | nil => simp [splitOnChar]
  | cons c cs ih =>
    have hc : ¬(c = sep) := fun heq => h (heq ▸ List.mem_cons_self c cs)
    have hcs : sep ∉ cs := fun hm => h (List.mem_cons_of_mem c hm)
    rw [List.cons_append]
    simp only [splitOnChar, if_neg hc, ih hcs]

/-- Splitting on newlines inverts joining with newlines when no line
contains a newline. -/
theorem splitOnChar_joinLines (ls : List Str) (hne : ls ≠ [])
    (h : ∀ l ∈ ls, '\n' ∉ l) : splitOnChar '\n' (joinLines ls) = ls := by
  induction ls with
  | nil => exact absurd rfl hne
  | cons l rest ih =>
    cases rest with
    | nil => exact splitOnChar_of_not_mem _ _ (h l (List.mem_cons_self _ _))
    | cons l' rest' =>
      rw [show joinLines (l :: l' :: rest')
          = l ++ '\n' :: joinLines (l' :: rest') from rfl,
        splitOnChar_append_cons _ _ _ (h l (List.mem_cons_self _ _)),
        ih (List.cons_ne_nil l' rest')
          (fun x hx => h x (List.mem_cons_of_mem l hx))]

/-- dropWhile is the identity when the head fails the test. -/
theorem dropWhile_eq_self_of_head (p : Char → Bool) (l : Str)
    (h : ∀ c, l.head? = some c → p c = false) : l.dropWhile p = l := by
  cases l with
  | nil => rfl
  | cons c cs =>
    rw [List.dropWhile_cons, h c rfl]
    simp

/-- A string whose first and last characters are not whitespace strips to
itself. -/
theorem pyStrip_eq_self_of_ends (l : Str)
    (h1 : ∀ c, l.head? = some c → isPySpace c = false)
    (h2 : ∀ c, l.reverse.head? = some c → isPySpace c = false) :
    pyStrip l = l := by
  rw [pyStrip, stripLeft, dropWhile_eq_self_of_head _ _ h1,
    dropWhile_eq_self_of_head _ _ h2, List.reverse_reverse]

/-- The head, when present, is a member. -/
theorem mem_of_head?_eq {α : Type} {l : List α} {c : α}
    (h : l.head? = some c) : c ∈ l := by
  cases l with
  | nil => cases h
  | cons a t =>
    rw [List.head?_cons] at h
    injection h with h
    exact h ▸ List.mem_cons_self a t

/-- A string with no whitespace at all strips to itself. -/
theorem pyStrip_eq_self_of_chars (l : Str)
    (h : ∀ c ∈ l, isPySpace c = false) : pyStrip l = l :=
  pyStrip_eq_self_of_ends l (fun c hc => h c (mem_of_head?_eq hc))
    (fun c hc => h c (List.mem_reverse.1 (mem_of_head?_eq hc)))

/-- A good key strips to itself. -/
theorem pyStrip_eq_self_of_goodKey (k : Str) (hk : GoodKey k) :
    pyStrip k = k := by
  rw [pyStrip, stripLeft, hk.2.2.1, hk.2.2.2, List.reverse_reverse]

/-- Every character of a rendered number part is a digit or the dot. -/
theorem renderParts_chars (ip fr k : ℕ) :
    ∀ c ∈ renderParts ip fr k, c.isDigit = true ∨ c = '.' := by
  intro c hc
  rw [renderParts] at hc
  rcases List.mem_append.1 hc with h' | h'
  · by_cases hip : ip = 0
    · rw [if_pos hip, List.mem_singleton] at h'
      subst h'
      left
      decide
    · rw [if_neg hip] at h'
      left
      exact mem_natDigitsAux_isDigit _ _ c h'
  · rcases List.mem_cons.1 h' with h1 | h1
    · right
      exact h1
    · left
      exact mem_padZeros_isDigit _ _ (mem_natDigitsAux_isDigit _ _) c h1

/-- A rendered number part is never empty. -/
theorem renderParts_ne_nil (ip fr k : ℕ) : renderParts ip fr k ≠ [] := by
  rw [renderParts]
  simp

/-- A rendered number part starts with a digit character. -/
theorem renderParts_head_digit (ip fr k : ℕ) :
    ∃ c rest, renderParts ip fr k = c :: rest ∧ c.isDigit = true := by
  by_cases hip : ip = 0
  · refine ⟨'0', '.' :: padZeros k (natDigits fr), ?_, by decide⟩
    rw [renderParts, if_pos hip]
    rfl
  · obtain ⟨c, rest, hcr⟩ := List.exists_cons_of_ne_nil (natDigits_ne_nil ip hip)
    refine ⟨c, rest ++ '.' :: padZeros k (natDigits fr), ?_, ?_⟩
    · rw [renderParts, if_neg hip, hcr]
      rfl
    · exact mem_natDigitsAux_isDigit _ _ c (hcr ▸ List.mem_cons_self c rest)

/-- A rendered amount is never empty. -/
theorem renderAmount_ne_nil (v : PyFloat) : renderAmount v ≠ [] := by
  cases v with
  | nan => decide
  | inf => decide
  | ninf => decide
  | fin q =>
    rw [renderAmount]
    split
    · simp
    · exact renderParts_ne_nil _ _ _

/-- Every character of a rendered amount is printable: not whitespace,
not a comma, not a newline. -/
theorem renderAmount_chars (v : PyFloat) :
    ∀ c ∈ renderAmount v, isPySpace c = false ∧ c ≠ ',' ∧ c ≠ '\n' := by
  have hdot : isPySpace '.' = false ∧ ('.' : Char) ≠ ',' ∧ ('.' : Char) ≠ '\n' := by
    refine ⟨by decide, by decide, by decide⟩
  have hparts : ∀ (ip fr k : ℕ), ∀ c ∈ renderParts ip fr k,
      isPySpace c = false ∧ c ≠ ',' ∧ c ≠ '\n' := by
    intro ip fr k c hc
    rcases renderParts_chars ip fr k c hc with h' | h'
    · obtain ⟨p1, p2, p3, _⟩ := digit_char_props c h'
      exact ⟨p1, p2, p3⟩
    · subst h'
      exact hdot
  cases v with
  | nan => decide
  | inf => decide
  | ninf => decide
  | fin q =>
    intro c hc
    rw [renderAmount] at hc
    rcases hq : decide (q < 0) with _ | _
    · rw [if_neg (of_decide_eq_false hq)] at hc
      exact hparts _ _ _ c hc
    · rw [if_pos (of_decide_eq_true hq)] at hc
      rcases List.mem_cons.1 hc with h1 | h1
      · subst h1
        exact ⟨by decide, by decide, by decide⟩
      · exact hparts _ _ _ c h1

/-- Parsing a digits-dot-digits string evaluates the two digit groups. -/
theorem parseUnsignedRat_of_parts (a b : Str) (ha : a ≠ [])
    (hda : ∀ c ∈ a, c.isDigit = true) (hdb : ∀ c ∈ b, c.isDigit = true) :
    parseUnsignedRat (a ++ '.' :: b)
      = some ((digitsVal a : ℚ) + (digitsVal b : ℚ) / 10 ^ b.length) := by
  have hdotA : '.' ∉ a := fun hm => absurd (hda '.' hm) (by decide)
  have hdotB : '.' ∉ b := fun hm => absurd (hdb '.' hm) (by decide)
  have hsplit : splitOnChar '.' (a ++ '.' :: b) = [a, b] := by
    rw [splitOnChar_append_cons _ _ _ hdotA, splitOnChar_of_not_mem _ _ hdotB]
  have hcond : (!(a ++ b).isEmpty && a.all Char.isDigit && b.all Char.isDigit)
      = true := by
    have h1 : (a ++ b).isEmpty = false := by
      rcases a with _ | ⟨c, cs⟩
      · exact absurd rfl ha
      · rfl
    rw [h1]
    simp only [Bool.not_false, Bool.true_and, Bool.and_eq_true, List.all_eq_true]
    exact ⟨hda, hdb⟩
  simp only [parseUnsignedRat, hsplit, hcond, if_pos]

/-- Every character of a rendered number is a digit. -/
theorem mem_natDigits_isDigit (n : ℕ) : ∀ c ∈ natDigits n, c.isDigit = true :=
  fun c hc => mem_natDigitsAux_isDigit n n c hc

/-- Parsing the rendered parts recovers the intended rational value. -/
theorem parseUnsignedRat_renderParts (ip fr k : ℕ) (hfr : fr < 10 ^ k) :
    parseUnsignedRat (renderParts ip fr k)
      = some ((ip : ℚ) + (fr : ℚ) / 10 ^ k) := by
  have hipDigits : ∀ c ∈ (if ip = 0 then ['0'] else natDigits ip),
      c.isDigit = true := by
    by_cases h0 : ip = 0
    · rw [if_pos h0]
      intro c hc
      rw [List.mem_singleton] at hc
      subst hc
      decide
    · rw [if_neg h0]
      exact mem_natDigits_isDigit _
  have hipNe : (if ip = 0 then ['0'] else natDigits ip) ≠ [] := by
    by_cases h0 : ip = 0
    · rw [if_pos h0]
      simp
    · rw [if_neg h0]
      exact natDigits_ne_nil _ h0
  have hfrD : ∀ c ∈ padZeros k (natDigits fr), c.isDigit = true :=
    mem_padZeros_isDigit _ _ (mem_natDigits_isDigit _)
  rw [renderParts, parseUnsignedRat_of_parts _ _ hipNe hipDigits hfrD]
  have h1 : digitsVal (if ip = 0 then ['0'] else natDigits ip) = ip := by
    by_cases h0 : ip = 0
    · rw [if_pos h0, h0]
      decide
    · rw [if_neg h0]
      exact digitsVal_natDigits ip
  have h2 : digitsVal (padZeros k (natDigits fr)) = fr := by
    rw [digitsVal_padZeros, digitsVal_natDigits]
  have h3 : (padZeros k (natDigits fr)).length = k :=
    length_padZeros _ _ (length_natDigitsAux_le _ _ _ hfr)
  rw [h1, h2, h3]

/-- Recomposition of a natural number from division and remainder, over
the rationals. -/
theorem natCast_div_mul_add_mod (m k : ℕ) :
    ((m / 10 ^ k : ℕ) : ℚ) * (10 : ℚ) ^ k + ((m % 10 ^ k : ℕ) : ℚ)
      = (m : ℚ) := by
  rw [show ((10 : ℚ)) ^ k = ((10 ^ k : ℕ) : ℚ) from by push_cast; ring]
  rw [show ((m / 10 ^ k : ℕ) : ℚ) * ((10 ^ k : ℕ) : ℚ) + ((m % 10 ^ k : ℕ) : ℚ)
      = (((m / 10 ^ k) * 10 ^ k + m % 10 ^ k : ℕ) : ℚ) from by push_cast; ring]
  congr 1
  rw [Nat.mul_comm]
  exact Nat.div_add_mod _ _

/-- Unsigned float conversion inverts the rendering of a nonnegative
renderable rational. -/
theorem tryFloatUnsigned_renderNonneg (q : ℚ) (h0 : 0 ≤ q)
    (hd : q.den ∣ 10 ^ max 1 q.den) :
    tryFloatUnsigned (renderNonneg q) = some (.fin q) := by
  have hkpos : 0 < (10 : ℕ) ^ max 1 q.den := pow_pos (by norm_num) _
  obtain ⟨t, ht⟩ := hd
  have hqmul : q * (10 : ℚ) ^ max 1 q.den = ((q.num * t : ℤ) : ℚ) := by
    calc q * (10 : ℚ) ^ max 1 q.den
        = q * (((10 : ℕ) ^ max 1 q.den : ℕ) : ℚ) := by push_cast; ring
      _ = q * ((q.den : ℚ) * (t : ℚ)) := by rw [ht]; push_cast; ring
      _ = (q * (q.den : ℚ)) * (t : ℚ) := by ring
      _ = ((q.num : ℤ) : ℚ) * (t : ℚ) := by rw [Rat.mul_den_eq_num]
      _ = ((q.num * t : ℤ) : ℚ) := by push_cast; ring
  have hmnn : 0 ≤ q.num * (t : ℤ) :=
    mul_nonneg (Rat.num_nonneg.2 h0) (Int.natCast_nonneg t)
  have hm : (((q * (10 : ℚ) ^ max 1 q.den).num.toNat : ℕ) : ℚ)
      = q * (10 : ℚ) ^ max 1 q.den := by
    have hnum : (q * (10 : ℚ) ^ max 1 q.den).num = q.num * t := by
      rw [hqmul, Rat.num_intCast]
    rw [hnum, hqmul]
    rw [show (((q.num * (t : ℤ)).toNat : ℕ) : ℚ)
        = (((q.num * (t : ℤ)).toNat : ℤ) : ℚ) from by push_cast; ring]
    rw [Int.toNat_of_nonneg hmnn]
  rw [renderNonneg]
  rw [show (10 : ℚ) ^ max 1 q.den = (10 : ℚ) ^ max 1 q.den from rfl]
  generalize hKdef : max 1 q.den = K at hm hkpos ⊢
  generalize hMdef : (q * (10 : ℚ) ^ K).num.toNat = M at hm ⊢
  obtain ⟨c, rest, hcr, hdig⟩ := renderParts_head_digit (M / 10 ^ K) (M % 10 ^ K) K
  have hnotnan : renderParts (M / 10 ^ K) (M % 10 ^ K) K ≠ "nan".toList := by
    rw [hcr]
    intro heq
    injection heq with hc1 _
    exact absurd (hc1 ▸ hdig) (by decide)
  have hnotinf : ¬(renderParts (M / 10 ^ K) (M % 10 ^ K) K = "inf".toList ∨
      renderParts (M / 10 ^ K) (M % 10 ^ K) K = "infinity".toList) := by
    rintro (heq | heq) <;> rw [hcr] at heq <;> injection heq with hc1 _ <;>
      exact absurd (hc1 ▸ hdig) (by decide)
  rw [tryFloatUnsigned, if_neg hnotnan, if_neg hnotinf,
    parseUnsignedRat_renderParts _ _ _ (Nat.mod_lt _ hkpos), Option.map_some']
  have h10 : ((10 : ℚ) ^ K) ≠ 0 := by positivity
  have hval : ((M / 10 ^ K : ℕ) : ℚ) + ((M % 10 ^ K : ℕ) : ℚ) / (10 : ℚ) ^ K
      = q := by
    calc ((M / 10 ^ K : ℕ) : ℚ) + ((M % 10 ^ K : ℕ) : ℚ) / (10 : ℚ) ^ K
        = (((M / 10 ^ K : ℕ) : ℚ) * (10 : ℚ) ^ K
            + ((M % 10 ^ K : ℕ) : ℚ)) / (10 : ℚ) ^ K := by field_simp
      _ = ((M : ℕ) : ℚ) / (10 : ℚ) ^ K := by rw [natCast_div_mul_add_mod]
      _ = (q * (10 : ℚ) ^ K) / (10 : ℚ) ^ K := by rw [hm]
      _ = q := by field_simp
  rw [hval]

/-- C10 core: float conversion inverts the rendering of any renderable
float value. -/
theorem tryFloat_renderAmount (v : PyFloat) (h : Renderable v) :
    tryFloat (renderAmount v) = some v := by
  cases v with
  | nan => decide
  | inf => decide
  | ninf => decide
  | fin q =>
    rcases lt_or_ge q 0 with hq | hq
    · have hplus : ¬(('-' :: renderNonneg (-q)).head? = some '+') := by
        rw [List.head?_cons]
        intro heq
        injection heq with heq
        exact absurd heq (by decide)
      have hminus : ('-' :: renderNonneg (-q)).head? = some '-' := by
        rw [List.head?_cons]
      have hrd : (-q).den ∣ 10 ^ max 1 (-q).den := by
        rw [Rat.neg_den]
        exact h
      rw [renderAmount, if_pos hq, tryFloat, if_neg hplus, if_pos hminus]
      rw [show ('-' :: renderNonneg (-q)).tail = renderNonneg (-q) from rfl]
      rw [tryFloatUnsigned_renderNonneg (-q) (by linarith) hrd, Option.map_some']
      rw [show PyFloat.neg (.fin (-q)) = .fin (-(-q)) from rfl, neg_neg]
    · obtain ⟨c, rest, hcr, hdig⟩ := renderParts_head_digit
        ((q * 10 ^ max 1 q.den).num.toNat / 10 ^ max 1 q.den)
        ((q * 10 ^ max 1 q.den).num.toNat % 10 ^ max 1 q.den) (max 1 q.den)
      have hcr' : renderNonneg q = c :: rest := by
        rw [renderNonneg]
        exact hcr
      have hplus : ¬((renderNonneg q).head? = some '+') := by
        rw [hcr', List.head?_cons]
        intro heq
        injection heq with heq
        exact absurd (heq ▸ hdig) (by decide)
      have hminus : ¬((renderNonneg q).head? = some '-') := by
        rw [hcr', List.head?_cons]
        intro heq
        injection heq with heq
        exact absurd (heq ▸ hdig) (by decide)
      rw [renderAmount, if_neg (not_lt.2 hq), tryFloat, if_neg hplus,
        if_neg hminus]
      exact tryFloatUnsigned_renderNonneg q hq h

/-- The head of an append with a non-empty left part. -/
theorem head?_append_left {α : Type} (l₁ l₂ : List α) (h : l₁ ≠ []) :
    (l₁ ++ l₂).head? = l₁.head? := by
  cases l₁ with
  | nil => exact absurd rfl h
  | cons a t => rfl

/-- If dropWhile keeps a cons intact, its head fails the test. -/
theorem not_pySpace_head_of_dropWhile (c : Char) (l : Str)
    (h : (c :: l).dropWhile isPySpace = c :: l) : isPySpace c = false := by
  cases hc : isPySpace c
  · rfl
  · exfalso
    rw [List.dropWhile_cons, hc, if_pos rfl] at h
    have h1 := (List.dropWhile_suffix (l := l) isPySpace).length_le
    rw [h] at h1
    simp at h1

/-- The parse loop body recovers the entry from its rendered line. -/
theorem lineEntry_rendered (k : Str) (v : PyFloat) (hk : GoodKey k)
    (hv : Renderable v) :
    lineEntry (k ++ ',' :: renderAmount v) = some (k, v) := by
  have hline : pyStrip (k ++ ',' :: renderAmount v)
      = k ++ ',' :: renderAmount v := by
    apply pyStrip_eq_self_of_ends
    · intro c hc
      cases hkc : k with
      | nil =>
        rw [hkc, List.nil_append, List.head?_cons] at hc
        injection hc with hc
        subst hc
        decide
      | cons k0 ks =>
        rw [hkc, List.cons_append, List.head?_cons] at hc
        injection hc with hc
        subst hc
        exact not_pySpace_head_of_dropWhile _ _ (hkc ▸ hk.2.2.1)
    · intro c hc
      rw [List.reverse_append, List.reverse_cons] at hc
      rw [head?_append_left _ _ (by simp)] at hc
      have hamt : (renderAmount v).reverse ≠ [] := by
        simpa using renderAmount_ne_nil v
      rw [head?_append_left _ _ hamt] at hc
      exact (renderAmount_chars v c
        (List.mem_reverse.1 (mem_of_head?_eq hc))).1
  have hsplitLine : splitOnChar ',' (k ++ ',' :: renderAmount v)
      = [k, renderAmount v] := by
    rw [splitOnChar_append_cons _ _ _ hk.1, splitOnChar_of_not_mem]
    intro hm
    exact ((renderAmount_chars v ',' hm).2.1) rfl
  have hamt2 : pyStrip (renderAmount v) = renderAmount v :=
    pyStrip_eq_self_of_chars _ (fun c hc => (renderAmount_chars v c hc).1)
  have hcond : pyStrip (k ++ ',' :: renderAmount v) ≠ [] ∧
      ',' ∈ pyStrip (k ++ ',' :: renderAmount v) := by
    rw [hline]
    exact ⟨by simp, List.mem_append.2 (Or.inr (List.mem_cons_self _ _))⟩
  simp only [lineEntry]
  rw [if_pos hcond, hline, hsplitLine]
  simp only [hamt2, tryFloat_renderAmount v hv, pyStrip_eq_self_of_goodKey k hk]

/-- Joining non-empty lines yields a non-empty text. -/
theorem joinLines_ne_nil (ls : List Str) (hne : ls ≠ [])
    (h : ∀ l ∈ ls, l ≠ []) : joinLines ls ≠ [] := by
  cases ls with
  | nil => exact absurd rfl hne
  | cons l rest =>
    cases rest with
    | nil => exact h l (List.mem_cons_self _ _)
    | cons l' rest' =>
      rw [show joinLines (l :: l' :: rest')
          = l ++ '\n' :: joinLines (l' :: rest') from rfl]
      simp

/-- The joined text starts with the first line. -/
theorem joinLines_head? (l : Str) (rest : List Str) (hl : l ≠ []) :
    (joinLines (l :: rest)).head? = l.head? := by
  cases rest with
  | nil => rfl
  | cons l' rest' =>
    rw [show joinLines (l :: l' :: rest')
        = l ++ '\n' :: joinLines (l' :: rest') from rfl]
    exact head?_append_left _ _ hl

/-- The joined text ends with the last line. -/
theorem joinLines_reverse_head? (ls : List Str) (hne : ls ≠ [])
    (h : ∀ l ∈ ls, l ≠ []) :
    (joinLines ls).reverse.head? = ((ls.getLast hne).reverse).head? := by
  induction ls with
  | nil => exact absurd rfl hne
  | cons l rest ih =>
    cases rest with
    | nil => rfl
    | cons l' rest' =>
      rw [show joinLines (l :: l' :: rest')
          = l ++ '\n' :: joinLines (l' :: rest') from rfl]
      have hJ : joinLines (l' :: rest') ≠ [] :=
        joinLines_ne_nil _ (List.cons_ne_nil _ _)
          (fun x hx => h x (List.mem_cons_of_mem l hx))
      rw [List.reverse_append, List.reverse_cons, List.append_assoc]
      rw [head?_append_left _ _ (by simpa using hJ)]
      rw [ih (List.cons_ne_nil l' rest')
        (fun x hx => h x (List.mem_cons_of_mem l hx))]
      congr 1

/-- The keys of an append. -/
theorem keysA_append {V : Type} (a b : AList V) :
    keysA (a ++ b) = keysA a ++ keysA b :=
  List.map_append _ _ _

/-- Folding insertion of entries with fresh pairwise-distinct keys appends
them in order. -/
theorem foldl_insertStep_fresh {V : Type} :
    ∀ (m acc : AList V), (keysA m).Nodup →
      (∀ x ∈ keysA m, x ∉ keysA acc) →
      m.foldl insertStep acc = acc ++ m := by
  intro m
  induction m with
  | nil =>
    intro acc _ _
    simp
  | cons e rest ih =>
    intro acc hnd hdisj
    have hnotin : e.1 ∉ keysA acc := hdisj e.1 (mem_keysA_cons.2 (Or.inl rfl))
    have hins : insertStep acc e = acc ++ [e] := by
      rw [insertStep, insertA, if_neg hnotin]
    rw [List.foldl_cons, hins,
      ih (acc ++ [e]) (List.nodup_cons.1 hnd).2 ?_, List.append_assoc]
    · rfl
    intro x hx hmem
    rw [keysA_append] at hmem
    rcases List.mem_append.1 hmem with h' | h'
    · exact hdisj x (mem_keysA_cons.2 (Or.inr hx)) h'
    · rw [show keysA [e] = [e.1] from rfl, List.mem_singleton] at h'
      exact (List.nodup_cons.1 hnd).1 (h' ▸ hx)

/-- Folds of pointwise-equal step functions agree. -/
theorem foldl_ext_mem {α β : Type} (f g : β → α → β) (l : List α) :
    ∀ b : β, (∀ (b' : β) (a : α), a ∈ l → f b' a = g b' a) →
      l.foldl f b = l.foldl g b := by
  induction l with
  | nil =>
    intro b _
    rfl
  | cons x xs ih =>
    intro b h
    rw [List.foldl_cons, List.foldl_cons, h b x (List.mem_cons_self _ _)]
    exact ih _ (fun b' a ha => h b' a (List.mem_cons_of_mem _ ha))

/-- C10: rendering a holdings mapping as name,amount lines joined by
newlines and reparsing it recovers exactly the same mapping, for every
mapping whose keys are pairwise distinct, contain no comma and no newline
and carry no leading or trailing whitespace, and whose amounts are
Python-float values (finite decimal expansions or the special values). -/
theorem text_roundtrip (m : AList PyFloat)
    (hnd : (keysA m).Nodup)
    (hkeys : ∀ k ∈ keysA m, GoodKey k)
    (hvals : ∀ e ∈ m, Renderable e.2) :
    parseInput (renderMapping m) = m := by
  cases m with
  | nil => rfl
  | cons e0 rest =>
    have hGK : ∀ e ∈ (e0 :: rest), GoodKey e.1 :=
      fun e he => hkeys e.1 (List.mem_map_of_mem Prod.fst he)
    have hnl : ∀ l ∈ (e0 :: rest).map lineOf, '\n' ∉ l := by
      intro l hl
      obtain ⟨e, he, rfl⟩ := List.mem_map.1 hl
      intro hm
      rw [lineOf] at hm
      rcases List.mem_append.1 hm with h' | h'
      · exact (hGK e he).2.1 h'
      · rcases List.mem_cons.1 h' with h'' | h''
        · exact absurd h'' (by decide)
        · exact ((renderAmount_chars e.2 '\n' h'').2.2) rfl
    have hlne : ∀ l ∈ (e0 :: rest).map lineOf, l ≠ [] := by
      intro l hl
      obtain ⟨e, he, rfl⟩ := List.mem_map.1 hl
      rw [lineOf]
      simp
    have hlineHead : ∀ e : Str × PyFloat, GoodKey e.1 →
        ∀ c, (lineOf e).head? = some c → isPySpace c = false := by
      intro e hG c hc
      rw [lineOf] at hc
      cases hke : e.1 with
      | nil =>
        rw [hke, List.nil_append, List.head?_cons] at hc
        injection hc with hc
        subst hc
        decide
      | cons k0 ks =>
        rw [hke, List.cons_append, List.head?_cons] at hc
        injection hc with hc
        subst hc
        exact not_pySpace_head_of_dropWhile _ _ (hke ▸ hG.2.2.1)
    have hlineLast : ∀ e : Str × PyFloat,
        ∀ c, (lineOf e).reverse.head? = some c → isPySpace c = false := by
      intro e c hc
      rw [lineOf, List.reverse_append, List.reverse_cons] at hc
      rw [head?_append_left _ _ (by simp)] at hc
      rw [head?_append_left _ _ (by simpa using renderAmount_ne_nil e.2)] at hc
      exact (renderAmount_chars e.2 c
        (List.mem_reverse.1 (mem_of_head?_eq hc))).1
    have hmapne : (e0 :: rest).map lineOf ≠ [] := by simp
    have htext : pyStrip (joinLines ((e0 :: rest).map lineOf))
        = joinLines ((e0 :: rest).map lineOf) := by
      apply pyStrip_eq_self_of_ends
      · intro c hc
        rw [List.map_cons] at hc
        rw [joinLines_head? _ _ (hlne (lineOf e0)
          (List.mem_map_of_mem lineOf (List.mem_cons_self _ _)))] at hc
        exact hlineHead e0 (hGK e0 (List.mem_cons_self _ _)) c hc
      · intro c hc
        rw [joinLines_reverse_head? _ hmapne hlne] at hc
        obtain ⟨e, _, heq⟩ := List.mem_map.1 (List.getLast_mem hmapne)
        rw [← heq] at hc
        exact hlineLast e c hc
    have hstep : ∀ (d : AList PyFloat) (e : Str × PyFloat), e ∈ e0 :: rest →
        parseStep d (lineOf e) = insertStep d e := by
      intro d e he
      simp only [parseStep, lineOf,
        lineEntry_rendered e.1 e.2 (hGK e he) (hvals e he), insertStep]
    rw [renderMapping, parseInput, htext,
      splitOnChar_joinLines _ hmapne hnl, List.foldl_map,
      foldl_ext_mem _ insertStep _ [] hstep]
    exact (foldl_insertStep_fresh _ [] hnd
      (fun x _ hx => (List.not_mem_nil x) hx)).trans (List.nil_append _)

/-- Witness for C10: the two-entry default ETF mapping round-trips. -/
theorem text_roundtrip_witness :
    ((keysA [("IWDA.AS".toList, PyFloat.fin 5000),
        ("CW8.PA".toList, PyFloat.fin 3000)]).Nodup ∧
      (∀ k ∈ keysA [("IWDA.AS".toList, PyFloat.fin 5000),
        ("CW8.PA".toList, PyFloat.fin 3000)], GoodKey k) ∧
      (∀ e ∈ [("IWDA.AS".toList, PyFloat.fin 5000),
        ("CW8.PA".toList, PyFloat.fin 3000)], Renderable e.2)) ∧
    parseInput (renderMapping [("IWDA.AS".toList, PyFloat.fin 5000),
        ("CW8.PA".toList, PyFloat.fin 3000)])
      = [("IWDA.AS".toList, PyFloat.fin 5000),
         ("CW8.PA".toList, PyFloat.fin 3000)] := by
  have h1 : (keysA [("IWDA.AS".toList, PyFloat.fin 5000),
      ("CW8.PA".toList, PyFloat.fin 3000)]).Nodup := by decide
  have h2 : ∀ k ∈ keysA [("IWDA.AS".toList, PyFloat.fin 5000),
      ("CW8.PA".toList, PyFloat.fin 3000)], GoodKey k := by decide
  have h3 : ∀ e ∈ [("IWDA.AS".toList, PyFloat.fin 5000),
      ("CW8.PA".toList, PyFloat.fin 3000)], Renderable e.2 := by decide
  exact ⟨⟨h1, h2, h3⟩, text_roundtrip _ h1 h2 h3⟩

end Portfolio
